import Mathlib

/-!
Verification of the kinetic model in `kinetic_model.ipynb`.

The notebook builds, for each dye model, a 3×3 rate matrix `K` from four rate
constants, integrates the linear ODE system `dP/dt = K·P` from a fixed initial
population over a fixed time grid, and saves one plot per model.  Here the
numerical core is embedded shallowly: the matrix builder and derivative are
translated over an arbitrary ring (instantiated at `ℚ` for executable claims
and at `ℝ` for the ODE-level consequences), the `np.arange` time window and the
initial condition are reproduced exactly, and the per-model loop and the saved
file names are modelled as pure functions.
-/

namespace KineticModel

/-- In-place write `M[i, j] = v` on a NumPy 3×3 array, as a pure update. -/
def setEntry {R : Type} (M : Matrix (Fin 3) (Fin 3) R) (i j : Fin 3) (v : R) :
    Matrix (Fin 3) (Fin 3) R :=
  fun a b => if a = i ∧ b = j then v else M a b

/-- The notebook's `make_K_matrix(*rates)`: start from `np.zeros((3,3))` and
write the five entries, with `rates[0] = k_em`, `rates[1] = k_ISC`,
`rates[2] = k_rISC`, `rates[-1] = k_nr`. -/
def make_K_matrix {R : Type} [Ring R] (k_em k_ISC k_rISC k_nr : R) :
    Matrix (Fin 3) (Fin 3) R :=
  let K0 : Matrix (Fin 3) (Fin 3) R := fun _ _ => 0
  let K1 := setEntry K0 0 1 (k_em + k_nr)
  let K2 := setEntry K1 1 1 (-(k_em + k_ISC + k_nr))
  let K3 := setEntry K2 1 2 k_rISC
  let K4 := setEntry K3 2 1 k_ISC
  setEntry K4 2 2 (-k_rISC)

/-- The notebook's `dPdt(P, t, K) = np.dot(K, P)`: the matrix–vector product `K·P`. -/
def dPdt {R : Type} [Ring R] (P : Fin 3 → R) (t : R) (K : Matrix (Fin 3) (Fin 3) R) :
    Fin 3 → R :=
  K.mulVec P

lemma make_K_matrix_apply {R : Type} [Ring R] (a b c d : R) (i j : Fin 3) :
    make_K_matrix a b c d i j =
      if i = 0 ∧ j = 1 then a + d
      else if i = 1 ∧ j = 1 then -(a + b + d)
      else if i = 1 ∧ j = 2 then c
      else if i = 2 ∧ j = 1 then b
      else if i = 2 ∧ j = 2 then -c
      else 0 := by
  fin_cases i <;> fin_cases j <;> simp [make_K_matrix, setEntry]

lemma dPdt_apply {R : Type} [Ring R] (P : Fin 3 → R) (t : R)
    (K : Matrix (Fin 3) (Fin 3) R) (i : Fin 3) :
    dPdt P t K i = K i 0 * P 0 + K i 1 * P 1 + K i 2 * P 2 := by
  simp [dPdt, Matrix.mulVec, Matrix.dotProduct, Fin.sum_univ_three]

/-- C1: `make_K_matrix` places `k_em + k_nr` at `[0,1]`, `-(k_em+k_ISC+k_nr)` at
`[1,1]`, `k_rISC` at `[1,2]`, `k_ISC` at `[2,1]`, `-k_rISC` at `[2,2]`, and zero
everywhere else (the whole first column and the rest of the first row). -/
theorem make_K_matrix_entries (k_em k_ISC k_rISC k_nr : ℚ) :
    make_K_matrix k_em k_ISC k_rISC k_nr 0 1 = k_em + k_nr ∧
    make_K_matrix k_em k_ISC k_rISC k_nr 1 1 = -(k_em + k_ISC + k_nr) ∧
    make_K_matrix k_em k_ISC k_rISC k_nr 1 2 = k_rISC ∧
    make_K_matrix k_em k_ISC k_rISC k_nr 2 1 = k_ISC ∧
    make_K_matrix k_em k_ISC k_rISC k_nr 2 2 = -k_rISC ∧
    make_K_matrix k_em k_ISC k_rISC k_nr 0 0 = 0 ∧
    make_K_matrix k_em k_ISC k_rISC k_nr 0 2 = 0 ∧
    make_K_matrix k_em k_ISC k_rISC k_nr 1 0 = 0 ∧
    make_K_matrix k_em k_ISC k_rISC k_nr 2 0 = 0 := by
  refine ⟨?_, ?_, ?_, ?_, ?_, ?_, ?_, ?_, ?_⟩ <;>
    simp [make_K_matrix_apply]

/-- C2: every column of `make_K_matrix` sums to zero (columns 1 and 2 by
cancellation, column 0 because it is entirely zero), and the first row is zero
except possibly at `[0,1]`. -/
theorem make_K_matrix_columns_sum_zero (k_em k_ISC k_rISC k_nr : ℚ) :
    (∀ j : Fin 3,
      make_K_matrix k_em k_ISC k_rISC k_nr 0 j +
      make_K_matrix k_em k_ISC k_rISC k_nr 1 j +
      make_K_matrix k_em k_ISC k_rISC k_nr 2 j = 0) ∧
    make_K_matrix k_em k_ISC k_rISC k_nr 0 0 = 0 ∧
    make_K_matrix k_em k_ISC k_rISC k_nr 0 2 = 0 := by
  refine ⟨fun j => ?_, ?_, ?_⟩
  · fin_cases j <;> simp [make_K_matrix_apply] <;> ring
  · simp [make_K_matrix_apply]
  · simp [make_K_matrix_apply]

/-- Start of the time window `np.arange(0, 1e-2, 1e-10)`. -/
def tStart : ℚ := 0

/-- Stop of the time window (exclusive), `1e-2` seconds. -/
def tStop : ℚ := 1 / 10 ^ 2

/-- Step of the time window, `1e-10` seconds. -/
def tStep : ℚ := 1 / 10 ^ 10

/-- Number of samples produced by `np.arange(start, stop, step)`:
`ceil((stop - start) / step)`. -/
def numSamples : ℕ := (⌈(tStop - tStart) / tStep⌉).toNat

/-- The `i`-th sample of the time grid `t`. -/
def tGrid (i : ℕ) : ℚ := tStart + i * tStep

/-- The initial condition: `P0 = np.zeros(3)`, then `P0[1] = 0.25`, `P0[2] = 0.75`. -/
def P0 : Fin 3 → ℚ :=
  Function.update (Function.update (fun _ => 0) 1 (1 / 4)) 2 (3 / 4)

/-- One row of `rate_constants.csv`: a dye name and its four rate constants. -/
structure RateRecord where
  name : List Char
  k_em : ℚ
  k_ISC : ℚ
  k_rISC : ℚ
  k_nr : ℚ

/-- The arguments the loop body hands to `odeint(dPdt, P0, t, args=(K,))`. -/
structure SolverCall where
  K : Matrix (Fin 3) (Fin 3) ℚ
  y0 : Fin 3 → ℚ
  grid : ℕ → ℚ
  nSamples : ℕ

/-- One iteration of the per-model loop: build `K` from the row's rates and
call the integrator with the fixed `P0` and the fixed time grid. -/
def modelSolverCall (r : RateRecord) : SolverCall :=
  { K := make_K_matrix r.k_em r.k_ISC r.k_rISC r.k_nr
    y0 := P0
    grid := tGrid
    nSamples := numSamples }

/-- The whole loop over the rows of the table, in row order. -/
def runAll (rs : List RateRecord) : List SolverCall :=
  rs.map modelSolverCall

/-- Python `s.replace(old, new)` for a one-character pattern: every occurrence
of the character `old` is replaced by `new`. -/
def replaceChar (old new : Char) : List Char → List Char
  | [] => []
  | c :: cs => (if c = old then new else c) :: replaceChar old new cs

/-- The file name `plot_pops` saves to: `"%s.svg" % mdl_name.replace(" ", "_")`. -/
def saveFileName (mdl_name : List Char) : List Char :=
  replaceChar ' ' '_' mdl_name ++ (".svg").data

/-- The image files saved by the loop: `plot_pops` saves exactly once per call,
and the loop calls it once per model, in row order. -/
def savedFiles (rs : List RateRecord) : List (List Char) :=
  rs.map (fun r => saveFileName r.name)

/-- The spec's wording for the base of the file name: the model's name with
every space character replaced by an underscore. -/
def nameSpacesToUnderscores (mdl_name : List Char) : List Char :=
  mdl_name.map (fun c => if c = ' ' then '_' else c)

lemma dPdt_components_sum_zero {R : Type} [CommRing R] (a b c d : R)
    (P : Fin 3 → R) (t : R) :
    dPdt P t (make_K_matrix a b c d) 0 + dPdt P t (make_K_matrix a b c d) 1 +
      dPdt P t (make_K_matrix a b c d) 2 = 0 := by
  simp [dPdt_apply, make_K_matrix_apply]
  ring

lemma numSamples_eq : numSamples = 10 ^ 8 := by
  norm_num [numSamples, tStop, tStart, tStep]
  rfl

lemma replaceChar_eq_map (old new : Char) (l : List Char) :
    replaceChar old new l = l.map (fun c => if c = old then new else c) := by
  induction l with
  | nil => rfl
  | cons c cs ih => simp [replaceChar, ih]

/-- C9: `dPdt` is autonomous: its value does not depend on the time argument. -/
theorem dPdt_autonomous (P : Fin 3 → ℚ) (K : Matrix (Fin 3) (Fin 3) ℚ) (t1 t2 : ℚ) :
    dPdt P t1 K = dPdt P t2 K := rfl

/-- C5: with `k_ISC = 0` and `k_rISC = 0` the T1 component of the derivative is
zero and the S1 component is `-(k_em + k_ISC + k_nr) · P_S1`. -/
theorem no_coupling_dynamics (k_em k_ISC k_rISC k_nr : ℚ) (hISC : k_ISC = 0)
    (hrISC : k_rISC = 0) (P : Fin 3 → ℚ) (t : ℚ) :
    dPdt P t (make_K_matrix k_em k_ISC k_rISC k_nr) 2 = 0 ∧
    dPdt P t (make_K_matrix k_em k_ISC k_rISC k_nr) 1 =
      -(k_em + k_ISC + k_nr) * P 1 := by
  subst hISC hrISC
  constructor
  · simp [dPdt_apply, make_K_matrix_apply]
  · simp [dPdt_apply, make_K_matrix_apply]

theorem no_coupling_dynamics_witness :
    dPdt (![1, 2, 3] : Fin 3 → ℚ) 0 (make_K_matrix 5 0 0 7) 2 = 0 ∧
    dPdt (![1, 2, 3] : Fin 3 → ℚ) 0 (make_K_matrix 5 0 0 7) 1 =
      -(5 + 0 + 7) * (![1, 2, 3] : Fin 3 → ℚ) 1 :=
  no_coupling_dynamics 5 0 0 7 rfl rfl ![1, 2, 3] 0

/-- C10: for non-negative rates and non-negative S1 population, the S0 component
of the derivative is `(k_em + k_nr) · P_S1`, hence non-negative: S0 only ever
gains population. -/
theorem ground_state_sink (k_em k_ISC k_rISC k_nr : ℚ) (h1 : 0 ≤ k_em)
    (h2 : 0 ≤ k_ISC) (h3 : 0 ≤ k_rISC) (h4 : 0 ≤ k_nr) (P : Fin 3 → ℚ) (t : ℚ)
    (hP : 0 ≤ P 1) :
    dPdt P t (make_K_matrix k_em k_ISC k_rISC k_nr) 0 = (k_em + k_nr) * P 1 ∧
    0 ≤ dPdt P t (make_K_matrix k_em k_ISC k_rISC k_nr) 0 := by
  have he : dPdt P t (make_K_matrix k_em k_ISC k_rISC k_nr) 0 = (k_em + k_nr) * P 1 := by
    simp [dPdt_apply, make_K_matrix_apply]
  exact ⟨he, he ▸ mul_nonneg (add_nonneg h1 h4) hP⟩

theorem ground_state_sink_witness :
    dPdt (![0, 4, 5] : Fin 3 → ℚ) 0 (make_K_matrix 1 2 3 6) 0 =
      (1 + 6) * (![0, 4, 5] : Fin 3 → ℚ) 1 ∧
    0 ≤ dPdt (![0, 4, 5] : Fin 3 → ℚ) 0 (make_K_matrix 1 2 3 6) 0 :=
  ground_state_sink 1 2 3 6 (by norm_num) (by norm_num) (by norm_num) (by norm_num)
    ![0, 4, 5] 0 (by norm_num)

/-- C3: the three components of `dPdt` always sum to zero; consequently any
exact trajectory of `dP/dt = K·P` started at `P0 = [0, 1/4, 3/4]` keeps total
population equal to 1 at every time. -/
theorem population_sum_conserved :
    (∀ (k_em k_ISC k_rISC k_nr : ℚ) (P : Fin 3 → ℚ) (t : ℚ),
      dPdt P t (make_K_matrix k_em k_ISC k_rISC k_nr) 0 +
      dPdt P t (make_K_matrix k_em k_ISC k_rISC k_nr) 1 +
      dPdt P t (make_K_matrix k_em k_ISC k_rISC k_nr) 2 = 0) ∧
    (∀ (k_em k_ISC k_rISC k_nr : ℝ) (Pt : ℝ → Fin 3 → ℝ),
      (∀ (s : ℝ) (i : Fin 3), HasDerivAt (fun u => Pt u i)
        (dPdt (Pt s) s (make_K_matrix k_em k_ISC k_rISC k_nr) i) s) →
      (∀ i : Fin 3, Pt 0 i = (P0 i : ℝ)) →
      ∀ s : ℝ, Pt s 0 + Pt s 1 + Pt s 2 = 1) := by
  constructor
  · intro a b c d P t
    exact dPdt_components_sum_zero a b c d P t
  · intro a b c d Pt hODE hInit s
    have hS : ∀ u : ℝ, HasDerivAt (fun v => Pt v 0 + Pt v 1 + Pt v 2) 0 u := by
      intro u
      have h0 := ((hODE u 0).add (hODE u 1)).add (hODE u 2)
      have hz := dPdt_components_sum_zero a b c d (Pt u) u
      rw [hz] at h0
      exact h0
    have hconst := is_const_of_deriv_eq_zero
      (f := fun v => Pt v 0 + Pt v 1 + Pt v 2)
      (fun u => (hS u).differentiableAt) (fun u => (hS u).deriv) s 0
    rw [hconst, hInit 0, hInit 1, hInit 2]
    have e0 : P0 0 = 0 := rfl
    have e1 : P0 1 = 1 / 4 := rfl
    have e2 : P0 2 = 3 / 4 := rfl
    rw [e0, e1, e2]
    norm_num

theorem population_sum_conserved_witness :
    (P0 0 : ℝ) + (P0 1 : ℝ) + (P0 2 : ℝ) = 1 :=
  population_sum_conserved.2 0 0 0 0 (fun _ i => (P0 i : ℝ))
    (fun s i => by
      have h := hasDerivAt_const (𝕜 := ℝ) s ((P0 i : ℝ))
      have hz : dPdt (fun j => (P0 j : ℝ)) s (make_K_matrix 0 0 0 0) i = 0 := by
        simp [dPdt_apply, make_K_matrix_apply]
      rw [hz]
      exact h)
    (fun _ => rfl) 1

/-- C4: the all-zero quadruple gives the zero matrix, a vanishing derivative for
every population vector, and a constant exact trajectory from any start. -/
theorem zero_rates_constant :
    (make_K_matrix (R := ℚ) 0 0 0 0 = fun _ _ => 0) ∧
    (∀ (P : Fin 3 → ℚ) (t : ℚ), dPdt P t (make_K_matrix 0 0 0 0) = fun _ => 0) ∧
    (∀ Pt : ℝ → Fin 3 → ℝ,
      (∀ (s : ℝ) (i : Fin 3), HasDerivAt (fun u => Pt u i)
        (dPdt (Pt s) s (make_K_matrix 0 0 0 0) i) s) →
      ∀ (s : ℝ) (i : Fin 3), Pt s i = Pt 0 i) := by
  refine ⟨?_, ?_, ?_⟩
  · funext i j
    rw [make_K_matrix_apply]
    fin_cases i <;> fin_cases j <;> norm_num
  · intro P t
    funext i
    simp [dPdt_apply, make_K_matrix_apply]
  · intro Pt hODE s i
    have hz : ∀ u : ℝ, HasDerivAt (fun v => Pt v i) 0 u := by
      intro u
      have h0 := hODE u i
      have he : dPdt (Pt u) u (make_K_matrix 0 0 0 0) i = 0 := by
        simp [dPdt_apply, make_K_matrix_apply]
      rw [he] at h0
      exact h0
    exact is_const_of_deriv_eq_zero (f := fun v => Pt v i)
      (fun u => (hz u).differentiableAt) (fun u => (hz u).deriv) s 0

theorem zero_rates_constant_witness :
    make_K_matrix (R := ℚ) 0 0 0 0 1 1 = 0 ∧
    (fun (_ : ℝ) (i : Fin 3) => (![2, 3, 4] : Fin 3 → ℝ) i) 5 0 =
      (fun (_ : ℝ) (i : Fin 3) => (![2, 3, 4] : Fin 3 → ℝ) i) 0 0 :=
  ⟨congrFun (congrFun zero_rates_constant.1 1) 1,
   zero_rates_constant.2.2 (fun _ i => (![2, 3, 4] : Fin 3 → ℝ) i)
    (fun s i => by
      have h := hasDerivAt_const (𝕜 := ℝ) s ((![2, 3, 4] : Fin 3 → ℝ) i)
      have hz : dPdt (fun j => (![2, 3, 4] : Fin 3 → ℝ) j) s (make_K_matrix 0 0 0 0) i = 0 := by
        simp [dPdt_apply, make_K_matrix_apply]
      rw [hz]
      exact h) 5 0⟩

/-- C6 (as stated) is false: the grid `np.arange(0, 1e-2, 1e-10)` does not have
one million samples. -/
theorem timeGrid_not_one_million : ¬ (numSamples = 10 ^ 6) := by
  rw [numSamples_eq]
  norm_num

/-- C6 (amended): the fixed time grid starts at 0, advances in uniform steps of
`1e-10` seconds, every sample is below `1e-2` seconds, and there are `10^8`
samples. -/
theorem timeGrid_spec :
    tGrid 0 = 0 ∧
    (∀ i : ℕ, tGrid (i + 1) - tGrid i = 1 / 10 ^ 10) ∧
    (∀ i : ℕ, i < numSamples → tGrid i < 1 / 10 ^ 2) ∧
    numSamples = 10 ^ 8 := by
  refine ⟨?_, ?_, ?_, numSamples_eq⟩
  · simp [tGrid, tStart, tStep]
  · intro i
    simp [tGrid, tStart, tStep]
    ring
  · intro i hi
    rw [numSamples_eq] at hi
    have hq : (i : ℚ) < 10 ^ 8 := by exact_mod_cast hi
    simp only [tGrid, tStart, tStep]
    nlinarith [hq]

theorem timeGrid_spec_witness : tGrid 5 < 1 / 10 ^ 2 :=
  timeGrid_spec.2.2.1 5 (by rw [numSamples_eq]; norm_num)

/-- C7: the initial condition is the fixed vector `[0, 1/4, 3/4]`, it does not
depend on the model's rate record, and every iteration of the per-model loop
hands the integrator the same `P0` and the same time grid. -/
theorem initial_condition_fixed :
    (P0 0 = 0 ∧ P0 1 = 1 / 4 ∧ P0 2 = 3 / 4) ∧
    (∀ r rp : RateRecord, (modelSolverCall r).y0 = (modelSolverCall rp).y0 ∧
      (modelSolverCall r).grid = (modelSolverCall rp).grid) ∧
    (∀ rs : List RateRecord, ∀ c ∈ runAll rs,
      c.y0 = P0 ∧ c.grid = tGrid ∧ c.nSamples = numSamples) := by
  refine ⟨⟨rfl, rfl, rfl⟩, fun r rp => ⟨rfl, rfl⟩, ?_⟩
  intro rs c hc
  rcases List.mem_map.mp hc with ⟨r, _, hr⟩
  subst hr
  exact ⟨rfl, rfl, rfl⟩

theorem initial_condition_fixed_witness :
    (modelSolverCall ⟨("Dye A").data, 1, 2, 3, 4⟩).y0 = P0 ∧
    (modelSolverCall ⟨("Dye A").data, 1, 2, 3, 4⟩).grid = tGrid ∧
    (modelSolverCall ⟨("Dye A").data, 1, 2, 3, 4⟩).nSamples = numSamples :=
  initial_condition_fixed.2.2 [⟨("Dye A").data, 1, 2, 3, 4⟩]
    (modelSolverCall ⟨("Dye A").data, 1, 2, 3, 4⟩)
    (List.mem_map.mpr ⟨⟨("Dye A").data, 1, 2, 3, 4⟩, List.mem_singleton.mpr rfl, rfl⟩)

/-- C8: the loop saves exactly one image per model, and each file name is the
model's name with every space replaced by an underscore, followed by the
`.svg` extension. -/
theorem saved_file_names :
    (∀ rs : List RateRecord, (savedFiles rs).length = rs.length) ∧
    (∀ name : List Char,
      saveFileName name = nameSpacesToUnderscores name ++ (".svg").data) := by
  constructor
  · intro rs
    simp [savedFiles]
  · intro name
    simp [saveFileName, nameSpacesToUnderscores, replaceChar_eq_map]

end KineticModel
